import Mathlib

/-!
# Verification of the Simple-format converter (`simpleParser.js`)

This file gives a shallow embedding, in Lean 4, of the JavaScript class
`SimpleParser` from `src/javascript/simpleParser.js`: a bidirectional
converter between the indentation-sensitive "Simple" textual notation and a
JSON-like value model.  Every definition below is translated directly from
the corresponding JavaScript function (named in each doc comment); theorems
at the end of the file settle the frozen claims about the program.

Modelling conventions:
* JavaScript strings are modelled as `List Char` internally (`String` at the
  API boundary).
* JavaScript numbers are modelled as `Rat`; the number tokens accepted by the
  parser (`/^-?\d+(\.\d+)?$/`) are read exactly (IEEE-754 double rounding of
  long literals and exponent-notation printing of huge magnitudes are outside
  the model).
* Non-structural recursions (mutual recursion of the inline-literal engine,
  recursion over nested lists of values) are expressed with an explicit fuel
  parameter so that every definition computes by kernel reduction; the public
  wrappers instantiate the fuel with a bound (a node count such as `jvSize`
  or `astSize`, or the input length) that is always sufficient.
* A JavaScript object is modelled as an association list updated with
  "last write wins, first position kept" semantics (`objInsert`), matching
  JS property assignment.  The JS quirk that integer-like keys enumerate
  first is not modelled (no claim exercises mappings with numeric keys).
-/

/-- The single-quote character (code point 39). -/
def squote : Char := Char.ofNat 39

/-- JavaScript's `\s` character class (whitespace as used by `trim`,
`/^(\s+)/` and `/^\s|\s$/` in the source). -/
def jsWs (c : Char) : Bool :=
  c = ' ' ∨ c = '\t' ∨ c = '\n' ∨ c = '\r' ∨ c = '\x0b' ∨ c = '\x0c' ∨
  c = '\u00A0' ∨ c = '\u1680' ∨ ('\u2000' ≤ c ∧ c ≤ '\u200A') ∨
  c = '\u2028' ∨ c = '\u2029' ∨ c = '\u202F' ∨ c = '\u205F' ∨
  c = '\u3000' ∨ c = '\uFEFF'

/-- JavaScript `String.prototype.trim` on character lists. -/
def jsTrim (l : List Char) : List Char :=
  ((l.dropWhile jsWs).reverse.dropWhile jsWs).reverse

/-- `trim` at the `String` boundary. -/
def jsTrimS (s : String) : String := ⟨jsTrim s.data⟩

/-- JavaScript `String.prototype.split` with a one-character separator. -/
def splitOnChar (sep : Char) : List Char → List (List Char)
  | [] => [[]]
  | c :: rest =>
    if c = sep then [] :: splitOnChar sep rest
    else
      match splitOnChar sep rest with
      | [] => [[c]]
      | p :: ps => (c :: p) :: ps

/-- `l` starts with the pattern `p` (JS `String.prototype.startsWith`). -/
def startsWithL : List Char → List Char → Bool
  | _, [] => true
  | [], _ :: _ => false
  | c :: l, p :: ps => c = p ∧ startsWithL l ps

/-- Decimal value of a digit run (`'0'..'9'` characters). -/
def digitsVal (l : List Char) : Nat :=
  l.foldl (fun a c => a * 10 + (c.toNat - 48)) 0

/-- Decimal digits of a natural number, most significant first; the fuel
bounds the number of divisions (`n + 1` always suffices). -/
def natDigits : Nat → Nat → List Char
  | 0, _ => []
  | fuel + 1, n =>
    if n < 10 then [Char.ofNat (48 + n)]
    else natDigits fuel (n / 10) ++ [Char.ofNat (48 + n % 10)]

/-- Decimal notation of a natural number. -/
def natToStr (n : Nat) : String := ⟨natDigits (n + 1) n⟩

/-- Decimal notation of an integer (JS `Number.prototype.toString` on an
integral value; note JS prints `-0` as `"0"`, and `Rat` has no negative
zero). -/
def intToStr (i : Int) : String :=
  if i < 0 then "-" ++ natToStr i.natAbs else natToStr i.natAbs

/-- JavaScript `Number(string)` on the token shapes reachable from the
sequence-key grammar: optional sign, then `digits`, `digits.digits`,
`digits.` or `.digits`; the empty/whitespace-only string is `0`; anything
else (in particular exponent forms, which no claim exercises) is `NaN`,
encoded as `none`. -/
def jsNum (l : List Char) : Option Rat :=
  let t := jsTrim l
  if t = [] then some 0
  else
    let sign : Int := if t.head? = some '-' then -1 else 1
    let t := match t with
      | '+' :: r => r
      | '-' :: r => r
      | _ => t
    let ip := t.takeWhile Char.isDigit
    let rest := t.dropWhile Char.isDigit
    match rest with
    | [] => if ip = [] then none else some (mkRat (sign * (digitsVal ip : Int)) 1)
    | '.' :: fr =>
      if fr.all Char.isDigit ∧ (ip ≠ [] ∨ fr ≠ []) then
        some (mkRat (sign * (digitsVal ip * 10 ^ fr.length + digitsVal fr : Int)) (10 ^ fr.length))
      else none
    | _ => none

/-- JavaScript `parseInt(s, 10)`: skip leading whitespace, optional sign,
then the leading digit run; `NaN` (i.e. `none`) when no digit follows. -/
def jsParseInt (l : List Char) : Option Int :=
  let t := l.dropWhile jsWs
  let (sign, t') : Int × List Char :=
    match t with
    | '+' :: r => (1, r)
    | '-' :: r => (-1, r)
    | _ => (1, t)
  let ds := t'.takeWhile Char.isDigit
  if ds = [] then none else some (sign * (digitsVal ds : Int))

/-- `SimpleParser._parseString`: decode the escape pairs `\n \r \t \\ \"`
left-to-right (the semantics of `str.replace(/\\([nrt\\"])/g, …)`); a
backslash before any other character is kept as-is, as is a trailing
backslash. -/
def decodeEsc : List Char → List Char
  | [] => []
  | ['\\'] => ['\\']
  | '\\' :: c :: t =>
    if c = 'n' then '\n' :: decodeEsc t
    else if c = 'r' then '\r' :: decodeEsc t
    else if c = 't' then '\t' :: decodeEsc t
    else if c = '\\' then '\\' :: decodeEsc t
    else if c = '"' then '"' :: decodeEsc t
    else '\\' :: c :: decodeEsc t
  | c :: rest => c :: decodeEsc rest

/-- `SimpleParser._parseString` at the `String` boundary. -/
def parseString (s : String) : String := ⟨decodeEsc s.data⟩

/-- One character of `SimpleParser._escapeString`: linefeed, tab, backslash
and double quote become their two-character escapes. -/
def escChar (c : Char) : List Char :=
  if c = '\n' then ['\\', 'n']
  else if c = '\t' then ['\\', 't']
  else if c = '\\' then ['\\', '\\']
  else if c = '"' then ['\\', '"']
  else [c]

/-- `SimpleParser._escapeString` on character lists
(`str.replace(/[\n\t\\"]/g, …)`). -/
def escapeChars : List Char → List Char
  | [] => []
  | c :: rest => escChar c ++ escapeChars rest

/-- `SimpleParser._escapeString` at the `String` boundary. -/
def escapeString (s : String) : String := ⟨escapeChars s.data⟩

/-- `SimpleParser._needsQuotes`: quote when the raw text starts with a
digit, equals `None`/`true`/`false`, contains one of `: , [ ] { }`, or has
leading or trailing whitespace. -/
def needsQuotes (s : String) : Bool :=
  let l := s.data
  (match l.head? with | some c => c.isDigit | none => false) ||
  s == "None" || s == "true" || s == "false" ||
  l.contains ':' || l.contains ',' || l.contains '\x5b' ||
  l.contains '\x5d' || l.contains '\x7b' || l.contains '\x7d' ||
  (match l.head? with | some c => jsWs c | none => false) ||
  (match l.getLast? with | some c => jsWs c | none => false)

/-! ## The value model -/

/-- The JSON-like value model (`Value` in the design): null, number,
string, sequence, mapping.  Booleans are included because the serializer
renders them, although the parser never produces one. -/
inductive JValue where
  | null
  | num (q : Rat)
  | str (s : String)
  | bool (b : Bool)
  | arr (elems : List JValue)
  | obj (entries : List (String × JValue))
deriving Repr

/-! Boolean structural equality on values, with a soundness proof; this is
verification infrastructure (used only to decide equality of concrete
values in theorem statements), not part of the source model. -/
mutual
def jvBEq : JValue → JValue → Bool
  | .null, .null => true
  | .num x, .num y => x == y
  | .str x, .str y => x == y
  | .bool x, .bool y => x == y
  | .arr xs, .arr ys => jvBEqL xs ys
  | .obj xs, .obj ys => jvBEqE xs ys
  | _, _ => false
def jvBEqL : List JValue → List JValue → Bool
  | [], [] => true
  | x :: xs, y :: ys => jvBEq x y && jvBEqL xs ys
  | _, _ => false
def jvBEqE : List (String × JValue) → List (String × JValue) → Bool
  | [], [] => true
  | (k, x) :: xs, (k2, y) :: ys => k == k2 && jvBEq x y && jvBEqE xs ys
  | _, _ => false
end

mutual
def jvBEq_sound : (a b : JValue) → jvBEq a b = true → a = b
  | .null, .null, _ => rfl
  | .num _, .num _, h => congrArg JValue.num (eq_of_beq h)
  | .str _, .str _, h => congrArg JValue.str (eq_of_beq h)
  | .bool _, .bool _, h => congrArg JValue.bool (eq_of_beq h)
  | .arr xs, .arr ys, h => congrArg JValue.arr (jvBEqL_sound xs ys h)
  | .obj xs, .obj ys, h => congrArg JValue.obj (jvBEqE_sound xs ys h)
  | .null, .num _, h => nomatch h
  | .null, .str _, h => nomatch h
  | .null, .bool _, h => nomatch h
  | .null, .arr _, h => nomatch h
  | .null, .obj _, h => nomatch h
  | .num _, .null, h => nomatch h
  | .num _, .str _, h => nomatch h
  | .num _, .bool _, h => nomatch h
  | .num _, .arr _, h => nomatch h
  | .num _, .obj _, h => nomatch h
  | .str _, .null, h => nomatch h
  | .str _, .num _, h => nomatch h
  | .str _, .bool _, h => nomatch h
  | .str _, .arr _, h => nomatch h
  | .str _, .obj _, h => nomatch h
  | .bool _, .null, h => nomatch h
  | .bool _, .num _, h => nomatch h
  | .bool _, .str _, h => nomatch h
  | .bool _, .arr _, h => nomatch h
  | .bool _, .obj _, h => nomatch h
  | .arr _, .null, h => nomatch h
  | .arr _, .num _, h => nomatch h
  | .arr _, .str _, h => nomatch h
  | .arr _, .bool _, h => nomatch h
  | .arr _, .obj _, h => nomatch h
  | .obj _, .null, h => nomatch h
  | .obj _, .num _, h => nomatch h
  | .obj _, .str _, h => nomatch h
  | .obj _, .bool _, h => nomatch h
  | .obj _, .arr _, h => nomatch h
def jvBEqL_sound : (xs ys : List JValue) → jvBEqL xs ys = true → xs = ys
  | [], [], _ => rfl
  | x :: xs, y :: ys, h =>
    have h' : (jvBEq x y && jvBEqL xs ys) = true := h
    have hp := Bool.and_eq_true _ _ ▸ h'
    have e1 : x = y := jvBEq_sound x y hp.1
    have e2 : xs = ys := jvBEqL_sound xs ys hp.2
    by rw [e1, e2]
  | [], _ :: _, h => nomatch h
  | _ :: _, [], h => nomatch h
def jvBEqE_sound : (xs ys : List (String × JValue)) → jvBEqE xs ys = true → xs = ys
  | [], [], _ => rfl
  | (k, x) :: xs, (k2, y) :: ys, h =>
    have h' : (k == k2 && jvBEq x y && jvBEqE xs ys) = true := h
    have hp := Bool.and_eq_true _ _ ▸ h'
    have hq := Bool.and_eq_true _ _ ▸ hp.1
    have e0 : k = k2 := eq_of_beq hq.1
    have e1 : x = y := jvBEq_sound x y hq.2
    have e2 : xs = ys := jvBEqE_sound xs ys hp.2
    by rw [e0, e1, e2]
  | [], _ :: _, h => nomatch h
  | _ :: _, [], h => nomatch h
end

mutual
def jvBEq_refl : (a : JValue) → jvBEq a a = true
  | .null => rfl
  | .num x => beq_self_eq_true x
  | .str x => beq_self_eq_true x
  | .bool x => beq_self_eq_true x
  | .arr xs => jvBEqL_refl xs
  | .obj xs => jvBEqE_refl xs
def jvBEqL_refl : (xs : List JValue) → jvBEqL xs xs = true
  | [] => rfl
  | x :: xs =>
    have h1 := jvBEq_refl x
    have h2 := jvBEqL_refl xs
    show (jvBEq x x && jvBEqL xs xs) = true from
      (Bool.and_eq_true _ _).symm ▸ (⟨h1, h2⟩ : _ ∧ _)
def jvBEqE_refl : (xs : List (String × JValue)) → jvBEqE xs xs = true
  | [] => rfl
  | (k, x) :: xs =>
    have h1 := jvBEq_refl x
    have h2 := jvBEqE_refl xs
    have h0 : (k == k && jvBEq x x) = true :=
      (Bool.and_eq_true _ _).symm ▸ (⟨beq_self_eq_true k, h1⟩ : _ ∧ _)
    show (k == k && jvBEq x x && jvBEqE xs xs) = true from
      (Bool.and_eq_true _ _).symm ▸ (⟨h0, h2⟩ : _ ∧ _)
end

instance : DecidableEq JValue := fun a b =>
  if h : jvBEq a b = true then isTrue (jvBEq_sound a b h)
  else isFalse (fun he => h (he ▸ jvBEq_refl a))

instance {ε α : Type} [DecidableEq ε] [DecidableEq α] : DecidableEq (Except ε α) := fun a b =>
  match a, b with
  | .ok x, .ok y =>
    if h : x = y then isTrue (by rw [h]) else isFalse (fun he => h (Except.ok.inj he))
  | .error x, .error y =>
    if h : x = y then isTrue (by rw [h]) else isFalse (fun he => h (Except.error.inj he))
  | .ok _, .error _ => isFalse (fun he => Except.noConfusion he)
  | .error _, .ok _ => isFalse (fun he => Except.noConfusion he)

/-- JavaScript `obj[key] = v`: overwrite in place when the key exists,
append otherwise. -/
def objInsert : List (String × JValue) → String → JValue → List (String × JValue)
  | [], k, v => [(k, v)]
  | (k', v') :: rest, k, v =>
    if k' = k then (k', v) :: rest else (k', v') :: objInsert rest k v

/-! ## The bracket/string-aware comma splitter -/

/-- Scanner state step of `SimpleParser._splitByComma`: arguments are the
remaining characters, the in-string flag, the active quote character, the
bracket nesting depth, the pending segment and the previous character. -/
def splitByCommaAux : List Char → Bool → Option Char → Int → List Char → Option Char →
    List (List Char)
  | [], _, _, _, cur, _ => if (jsTrim cur).isEmpty then [] else [jsTrim cur]
  | c :: rest, inStr, strChar, depth, cur, prev =>
    if (c = '"' ∨ c = squote) ∧ (prev = none ∨ prev ≠ some '\\') then
      -- after a toggle the quote character itself is appended: it is not a
      -- bracket or a comma, so the depth/comma block never fires on it
      if ¬inStr then splitByCommaAux rest true (some c) depth (cur ++ [c]) (some c)
      else if strChar = some c then splitByCommaAux rest false none depth (cur ++ [c]) (some c)
      else splitByCommaAux rest inStr strChar depth (cur ++ [c]) (some c)
    else if inStr then splitByCommaAux rest inStr strChar depth (cur ++ [c]) (some c)
    else
      let depth' := depth + (if c = '\x5b' ∨ c = '\x7b' then 1 else 0)
                          - (if c = '\x5d' ∨ c = '\x7d' then 1 else 0)
      if c = ',' ∧ depth' = 0 then
        jsTrim cur :: splitByCommaAux rest inStr strChar depth' [] (some c)
      else splitByCommaAux rest inStr strChar depth' (cur ++ [c]) (some c)

/-- `SimpleParser._splitByComma`. -/
def splitByComma (l : List Char) : List (List Char) :=
  splitByCommaAux l false none 0 [] none

/-! ## The scalar classifier and the inline literal engine -/

/-- `SimpleParser._isNumber`, the whole-token match of `/^-?\d+(\.\d+)?$/`. -/
def isNumberTok (l : List Char) : Bool :=
  let t := match l with | '-' :: r => r | _ => l
  let ds := t.takeWhile Char.isDigit
  let rest := t.dropWhile Char.isDigit
  !ds.isEmpty &&
    (rest.isEmpty ||
      (match rest with | '.' :: fr => !fr.isEmpty && fr.all Char.isDigit | _ => false))

/-- Value of an unsigned decimal token (integer part, optional fraction). -/
def parseNumAbs (t : List Char) : Rat :=
  let ip := t.takeWhile Char.isDigit
  let fr := match t.dropWhile Char.isDigit with | '.' :: fr => fr | _ => []
  mkRat (digitsVal ip * 10 ^ fr.length + digitsVal fr : Int) (10 ^ fr.length)

/-- `SimpleParser._parseNumber` on tokens accepted by `_isNumber`
(`parseFloat` reads the literal; the `isNaN` fallback is unreachable for
accepted tokens). -/
def parseNumberTok (l : List Char) : Rat :=
  match l with
  | '-' :: r => -parseNumAbs r
  | _ => parseNumAbs l

/-- The token is wrapped in a pair of matching double or single quotes. -/
def isQuotedTok (l : List Char) : Bool :=
  (l.head? = some '"' ∧ l.getLast? = some '"') ∨
  (l.head? = some squote ∧ l.getLast? = some squote)

/-- JS `substring(1, length - 1)`: drop the first and last character. -/
def stripEnds (l : List Char) : List Char := (l.drop 1).dropLast

/-- The token starts with `a` and ends with `b`. -/
def startsEnds (l : List Char) (a b : Char) : Bool :=
  l.head? = some a ∧ l.getLast? = some b

/-- First-colon split: `some (before, after)`, or `none` when there is no
colon (JS `indexOf(':') === -1`). -/
def splitAtChar (sep : Char) : List Char → Option (List Char × List Char)
  | [] => none
  | c :: rest =>
    if c = sep then some ([], rest)
    else
      match splitAtChar sep rest with
      | none => none
      | some (a, b) => some (c :: a, b)

/-- `SimpleParser._parseInlineArray`, parameterized by the recursive value
parser `pv` (the engine and `_parseValue` are mutually recursive in the
source; the recursion is closed below with fuel). -/
def parseInlineArrayGo (pv : List Char → JValue) (l : List Char) : List JValue :=
  let content := jsTrim (stripEnds l)
  if content.isEmpty then []
  else (splitByComma content).map (fun item => pv (jsTrim item))

/-- `SimpleParser._parseInlineObject`, parameterized like
`parseInlineArrayGo`; segments without a colon are silently skipped. -/
def parseInlineObjectGo (pv : List Char → JValue) (l : List Char) : List (String × JValue) :=
  let content := jsTrim (stripEnds l)
  if content.isEmpty then []
  else
    (splitByComma content).foldl
      (fun acc pair =>
        match splitAtChar ':' pair with
        | none => acc
        | some (k, rest) => objInsert acc ⟨jsTrim k⟩ (pv (jsTrim rest))) []

/-- `SimpleParser._parseValue`: the classifier priority chain (`None`,
`{}`, `[]`, number, quoted string, inline array, inline object, bare
string), producing a value directly.  The fuel bounds the nesting depth of
inline literals; the token length always suffices because each inline level
strips the outer brackets. -/
def parseValueGo : Nat → List Char → JValue
  | 0, _ => .null
  | f + 1, l =>
    if l = "None".data then .null
    else if l = "\x7b\x7d".data then .obj []
    else if l = "[]".data then .arr []
    else if isNumberTok l then .num (parseNumberTok l)
    else if isQuotedTok l then .str ⟨decodeEsc (stripEnds l)⟩
    else if startsEnds l '\x5b' '\x5d' then .arr (parseInlineArrayGo (parseValueGo f) l)
    else if startsEnds l '\x7b' '\x7d' then .obj (parseInlineObjectGo (parseValueGo f) l)
    else .str ⟨decodeEsc l⟩

/-- `SimpleParser._parseValue` with the fuel instantiated. -/
def parseValue (l : List Char) : JValue := parseValueGo l.length l

/-! ## The preprocessor (`_removeComments`) -/

/-- Character scan of `SimpleParser._removeComments`.  State arguments
after the remaining input: in-block-comment, in-string, active quote
character, in-line-comment (the inner skip-to-end-of-line loop of the
source), previous character (`str[i - 1]`). -/
def removeCommentsAux : List Char → Bool → Bool → Option Char → Bool → Option Char → List Char
  | [], _, _, _, _, _ => []
  | c :: rest, inML, inStr, strChar, inLC, prev =>
    if inLC then
      -- the source's skip loop stops *at* the linefeed, which the next
      -- iteration then emits through the default branch
      if c = '\n' then '\n' :: removeCommentsAux rest inML inStr strChar false (some c)
      else removeCommentsAux rest inML inStr strChar true (some c)
    else if ¬inML ∧ (c = '"' ∨ c = squote) then
      if ¬inStr then c :: removeCommentsAux rest inML true (some c) false (some c)
      else if strChar = some c ∧ prev ≠ some '\\' then
        c :: removeCommentsAux rest inML false none false (some c)
      else c :: removeCommentsAux rest inML inStr strChar false (some c)
    else if inStr ∧ c = '\\' then
      match rest with
      | [] =>
        -- JS appends `char + nextChar` where `nextChar` is `undefined`,
        -- i.e. the text "undefined"
        '\\' :: "undefined".data
      | c2 :: rest2 => '\\' :: c2 :: removeCommentsAux rest2 inML inStr strChar false (some c2)
    else if ¬inStr ∧ c = '/' ∧ rest.head? = some '*' then
      match rest with
      | c2 :: rest2 => removeCommentsAux rest2 true inStr strChar false (some c2)
      | [] => []
    else if inML ∧ c = '*' ∧ rest.head? = some '/' then
      match rest with
      | c2 :: rest2 => removeCommentsAux rest2 false inStr strChar false (some c2)
      | [] => []
    else if inML then removeCommentsAux rest inML inStr strChar false (some c)
    else if ¬inStr ∧ ((c = '/' ∧ rest.head? = some '/') ∨ c = '#') then
      removeCommentsAux rest inML inStr strChar true (some c)
    else c :: removeCommentsAux rest inML inStr strChar false (some c)

/-- `SimpleParser._removeComments`. -/
def removeComments (l : List Char) : List Char :=
  removeCommentsAux l false false none false none

/-! ## The line reconstructor (`_processMultilineStrings`) -/

/-- Character scan of `SimpleParser._processMultilineStrings`: decode `\n`
and `\t` escapes inside quoted strings into real characters on the current
logical line, split on raw linefeeds.  State arguments after the remaining
input: in-string, active quote character, current line, previous
character. -/
def pmsAux : List Char → Bool → Option Char → List Char → Option Char → List (List Char)
  | [], _, _, cur, _ => if cur.isEmpty then [] else [cur]
  | c :: rest, inStr, strChar, cur, prev =>
    if c = '"' ∨ c = squote then
      -- a quote toggles the string state and, being neither a backslash
      -- nor a linefeed, always falls through to the default append
      if ¬inStr then pmsAux rest true (some c) (cur ++ [c]) (some c)
      else if strChar = some c ∧ prev ≠ some '\\' then
        pmsAux rest false none (cur ++ [c]) (some c)
      else pmsAux rest inStr strChar (cur ++ [c]) (some c)
    else if inStr ∧ c = '\\' ∧ rest.head? = some 'n' then
      match rest with
      | _ :: rest2 => pmsAux rest2 inStr strChar (cur ++ ['\n']) (some 'n')
      | [] => [cur]
    else if inStr ∧ c = '\\' ∧ rest.head? = some 't' then
      match rest with
      | _ :: rest2 => pmsAux rest2 inStr strChar (cur ++ ['\t']) (some 't')
      | [] => [cur]
    else if c = '\n' then cur :: pmsAux rest inStr strChar [] (some c)
    else pmsAux rest inStr strChar (cur ++ [c]) (some c)

/-- `SimpleParser._processMultilineStrings`: scan, then drop blank logical
lines. -/
def processMultilineStrings (l : List Char) : List (List Char) :=
  (pmsAux l false none [] none).filter (fun ln => !(jsTrim ln).isEmpty)

/-! ## Parse trees, the indent profiler and the block parser -/

/-- The intermediate parse tree (`ParseNode`): a node carries its textual
key, its classified kind/value, and — for block containers only — an
ordered child list (`none` models the absent `children` field of JS nodes
created by the pure-value branch). -/
inductive Ast where
  | anull (key : String)
  | anum (key : String) (q : Rat)
  | astr (key : String) (s : String)
  | aobj (key : String) (payload : List (String × JValue)) (children : Option (List Ast))
  | aarr (key : String) (payload : List JValue) (children : Option (List Ast))
deriving Repr

/-- The `key` field of a parse node. -/
def Ast.key : Ast → String
  | anull k => k
  | anum k _ => k
  | astr k _ => k
  | aobj k _ _ => k
  | aarr k _ _ => k

/-- The classified value of a line (`_parseKeyValue`'s `{type, value}`
record): null, number, string, object (empty marker or inline literal), or
array (empty marker or inline literal). -/
inductive NodeVal where
  | vnull
  | vnum (q : Rat)
  | vstr (s : String)
  | vobj (payload : List (String × JValue))
  | varr (payload : List JValue)
deriving Repr

/-- The single parse-error kind (`throw new Error("Invalid line: …")`). -/
inductive ParseErr where
  | invalidLine
deriving Repr, DecidableEq

/-- The classifier chain shared verbatim by `_parseKeyValue`, `_parseValue`
and `_getValueType` (the three walk the identical priority order). -/
def classifyToken (f : Nat) (l : List Char) : NodeVal :=
  if l = "None".data then .vnull
  else if l = "\x7b\x7d".data then .vobj []
  else if l = "[]".data then .varr []
  else if isNumberTok l then .vnum (parseNumberTok l)
  else if isQuotedTok l then .vstr ⟨decodeEsc (stripEnds l)⟩
  else if startsEnds l '\x5b' '\x5d' then .varr (parseInlineArrayGo (parseValueGo f) l)
  else if startsEnds l '\x7b' '\x7d' then .vobj (parseInlineObjectGo (parseValueGo f) l)
  else .vstr ⟨decodeEsc l⟩

/-- `SimpleParser._parseKeyValue`: split the line at its first colon;
throw `InvalidLine` when there is none.  (The source also receives the
parent type, but never uses it.) -/
def parseKeyValue (f : Nat) (line : List Char) : Except ParseErr (String × NodeVal) :=
  match splitAtChar ':' line with
  | none => .error .invalidLine
  | some (before, after) => .ok (⟨jsTrim before⟩, classifyToken f (jsTrim after))

/-- Indentation style kinds. -/
inductive IndentKind where
  | space
  | tab
deriving Repr, DecidableEq

/-- The mutable fields of a `SimpleParser` instance: the detected
indentation style (`indentType`/`indentSize`, `null` in the constructor,
always assigned as a pair) and the one-shot serialization flag
(`outerParsed`). -/
structure ParserInstance where
  ind : Option (IndentKind × Nat)
  outerParsed : Bool
deriving Repr, DecidableEq

/-- A freshly constructed `SimpleParser` instance. -/
def freshInstance : ParserInstance := ⟨none, false⟩

/-- The skip condition shared by `_detectIndentType` and `_linesToAst`:
blank or comment-looking lines are passed over. -/
def lineSkipped (l : List Char) : Bool :=
  (jsTrim l).isEmpty || startsWithL (jsTrim l) "//".data || startsWithL (jsTrim l) "#".data

/-- The leading-whitespace run of the first non-skipped line that has one
(the `line.match(/^(\s+)/)` probe of `_detectIndentType`). -/
def findLead : List (List Char) → Option (List Char)
  | [] => none
  | l :: rest =>
    if lineSkipped l then findLead rest
    else
      let lead := l.takeWhile jsWs
      if lead.isEmpty then findLead rest else some lead

/-- `SimpleParser._detectIndentType`: tab style (unit 1) when the probe run
contains a tab, otherwise space style sized by the run length; when no line
is indented the *stale instance fields survive*, defaulting to space/2 only
when they were still null. -/
def detectIndentType (lines : List (List Char)) (st : Option (IndentKind × Nat)) :
    IndentKind × Nat :=
  match findLead lines with
  | some lead => if lead.contains '\t' then (.tab, 1) else (.space, lead.length)
  | none => st.getD (.space, 2)

/-- `SimpleParser._getIndentLevel`.  (With a space size of `0` JS would
produce `NaN`; `Nat` division yields `0` instead.  No detected style has
size `0`, and the stale-state theorems below restrict to well-formed
styles.) -/
def getIndentLevel (sty : IndentKind × Nat) (line : List Char) : Nat :=
  match sty.1 with
  | .tab => (line.takeWhile (fun c => c = '\t')).length
  | .space => (line.takeWhile jsWs).length / sty.2

/-- An open block container on the frame stack: its key, its kind and
inline payload, the indent level of its introducing line, and the children
collected so far. -/
inductive FrameVal where
  | fobj (payload : List (String × JValue))
  | farr (payload : List JValue)
deriving Repr

/-- A stack frame of `_linesToAst`. -/
structure Frame where
  key : String
  fv : FrameVal
  indent : Int
  children : List Ast
deriving Repr

/-- The frame stack: the open containers above the synthetic root mapping
(innermost first), plus the root's collected children.  (In the source the
root is the sentinel frame with indent `-1`, whose only mutable part is its
child list.) -/
structure PStack where
  upper : List Frame
  rootCh : List Ast
deriving Repr

/-- Close a finished frame into a parse-tree node. -/
def closeFrame (f : Frame) : Ast :=
  match f.fv with
  | .fobj p => .aobj f.key p (some f.children)
  | .farr p => .aarr f.key p (some f.children)

/-- Cascade a closed node downwards while the pop condition
(`top.indent >= indent`, stack above root nonempty) keeps firing. -/
def popPending (ind : Int) (a : Ast) : List Frame → List Ast → List Frame × List Ast
  | [], rootCh => ([], rootCh ++ [a])
  | g :: gs, rootCh =>
    let g' := { g with children := g.children ++ [a] }
    if ind ≤ g'.indent then popPending ind (closeFrame g') gs rootCh
    else (g' :: gs, rootCh)

/-- The pop loop of `_linesToAst` (lines 185–187 of the source): close open
containers whose indent is `≥` the current line's indent.  (The source pops
bare frames because children were attached at creation; attaching at pop
time yields the same tree in creation order.) -/
def popTo (st : PStack) (ind : Int) : PStack :=
  match st.upper with
  | [] => st
  | f :: rest =>
    if ind ≤ f.indent then
      let (u, r) := popPending ind (closeFrame f) rest st.rootCh
      ⟨u, r⟩
    else st

/-- Append a finished child node to the current parent (the innermost open
frame, or the root). -/
def appendChild (st : PStack) (a : Ast) : PStack :=
  match st.upper with
  | [] => ⟨[], st.rootCh ++ [a]⟩
  | f :: rest => ⟨{ f with children := f.children ++ [a] } :: rest, st.rootCh⟩

/-- The current parent is an open sequence (`parent.node.type === 'array'`;
the synthetic root is a mapping). -/
def parentIsArr (st : PStack) : Bool :=
  match st.upper with
  | f :: _ => (match f.fv with | .farr _ => true | .fobj _ => false)
  | [] => false

/-- `arrayFormat` option values. -/
inductive ArrayFormat where
  | indexed
  | values
deriving Repr, DecidableEq

/-- Options of `parse` (after merging with the defaults). -/
structure POptions where
  arrayFormat : ArrayFormat
deriving Repr, DecidableEq

/-- The default `parse` options (`arrayFormat: 'indexed'`). -/
def defaultPOptions : POptions := ⟨.indexed⟩

/-- A pure-value line of a `values`-mode sequence: a child keyed `"-"`
built from `_parseValue`/`_getValueType` of the trimmed line (such nodes
carry no `children` field). -/
def valueLeaf (t : List Char) : Ast :=
  match classifyToken t.length t with
  | .vnull => .anull "-"
  | .vnum q => .anum "-" q
  | .vstr s => .astr "-" s
  | .vobj p => .aobj "-" p none
  | .varr p => .aarr "-" p none

/-- One iteration of the `_linesToAst` loop. -/
def processLine (sty : IndentKind × Nat) (fmt : ArrayFormat) (st : PStack) (line : List Char) :
    Except ParseErr PStack :=
  let indent : Int := getIndentLevel sty line
  let trimmed := jsTrim line
  if trimmed.isEmpty then .ok st
  else if startsWithL trimmed "//".data || startsWithL trimmed "#".data then .ok st
  else
    let st := popTo st indent
    if fmt = .values ∧ parentIsArr st ∧ ¬line.contains ':' then
      .ok (appendChild st (valueLeaf trimmed))
    else
      match parseKeyValue trimmed.length trimmed with
      | .error e => .error e
      | .ok (key, nv) =>
        match nv with
        | .vnull => .ok (appendChild st (.anull key))
        | .vnum q => .ok (appendChild st (.anum key q))
        | .vstr s => .ok (appendChild st (.astr key s))
        | .vobj p => .ok ⟨⟨key, .fobj p, indent, []⟩ :: st.upper, st.rootCh⟩
        | .varr p => .ok ⟨⟨key, .farr p, indent, []⟩ :: st.upper, st.rootCh⟩

/-- Fold `processLine` over the logical lines, aborting at the first
error. -/
def processLines (sty : IndentKind × Nat) (fmt : ArrayFormat) :
    List (List Char) → PStack → Except ParseErr PStack
  | [], st => .ok st
  | l :: ls, st =>
    match processLine sty fmt st l with
    | .error e => .error e
    | .ok st' => processLines sty fmt ls st'

/-- Close every remaining open frame at end of input. -/
def popAllPending (a : Ast) : List Frame → List Ast → List Ast
  | [], rootCh => rootCh ++ [a]
  | g :: gs, rootCh => popAllPending (closeFrame { g with children := g.children ++ [a] }) gs rootCh

/-- The root children after the final implicit closes. -/
def popAll : List Frame → List Ast → List Ast
  | [], rootCh => rootCh
  | f :: rest, rootCh => popAllPending (closeFrame f) rest rootCh

/-- `SimpleParser._linesToAst`: run the stack machine and wrap the
children in the synthetic root mapping node (which has no key; `""` is a
placeholder never read downstream). -/
def linesToAst (lines : List (List Char)) (sty : IndentKind × Nat) (fmt : ArrayFormat) :
    Except ParseErr Ast :=
  match processLines sty fmt lines ⟨[], []⟩ with
  | .error e => .error e
  | .ok st => .ok (.aobj "" [] (some (popAll st.upper st.rootCh)))

/-! ## The materializer (`_astToObject`) -/

/-- Integer array indices touched by the loop
`for (let i = start; i <= end; i++)` for a range key: when the start is a
non-negative integer these are `start, start+1, …, ⌊end⌋`; a `NaN` bound
gives none, and a fractional start steps over non-integer positions only
(such JS assignments create non-index properties invisible in the resulting
array, as are the fractional entries recorded in `explicitIndices`, which
can never equal the integer placeholder cursor). -/
def rangeIdxs (s e : Option Rat) : List Nat :=
  match s, e with
  | some a, some b =>
    if a.den = 1 then (List.range (b.floor - a.num + 1).toNat).map (fun k => (a.num + k).toNat)
    else []
  | _, _ => []

/-- Accumulator of the sequence-reconciliation scan: positional
assignments in program order, the `explicitIndices` list, and the
placeholder values in encounter order. -/
structure SeqAcc where
  assigns : List (Nat × JValue)
  claimed : List Nat
  dashes : List JValue
deriving Repr

/-- One child of the sequence classification loop of `_astToObject`:
placeholder key `"-"`, range key (contains `"-"`), else `parseInt` index
(children with unparsable keys are dropped).  A key without `"-"` cannot
parse negative, and range bounds are parsed from hyphen-free parts, so all
recorded indices are naturals. -/
def collectSeqChild (acc : SeqAcc) (kv : String × JValue) : SeqAcc :=
  let key := kv.1
  if key = "-" then { acc with dashes := acc.dashes ++ [kv.2] }
  else if key.data.contains '-' then
    let parts := splitOnChar '-' key.data
    let idxs := rangeIdxs (jsNum (parts.headD [])) (jsNum ((parts.drop 1).headD []))
    { acc with assigns := acc.assigns ++ idxs.map (fun i => (i, kv.2)),
               claimed := acc.claimed ++ idxs }
  else
    match jsParseInt key.data with
    | some i => { acc with assigns := acc.assigns ++ [(i.toNat, kv.2)],
                           claimed := acc.claimed ++ [i.toNat] }
    | none => acc

/-- Classification pass over the materialized children of a sequence
node. -/
def seqCollect (entries : List (String × JValue)) : SeqAcc :=
  entries.foldl collectSeqChild ⟨[], [], []⟩

/-- The cursor advance `while (explicitIndices.includes(currentIndex))
currentIndex++`.  The fuel bounds the number of skips; `claimed.length + 1`
always suffices because each skip consumes a distinct claimed value. -/
def nextFreeGo : Nat → List Nat → Nat → Nat
  | 0, _, c => c
  | f + 1, claimed, c => if claimed.contains c then nextFreeGo f claimed (c + 1) else c

/-- The placeholder assignment pass: each collected value goes to the
cursor's next unclaimed index. -/
def dashAssign (claimed : List Nat) : List JValue → Nat → List (Nat × JValue)
  | [], _ => []
  | v :: vs, cur =>
    let c := nextFreeGo (claimed.length + 1) claimed cur
    (c, v) :: dashAssign claimed vs (c + 1)

/-- All positional assignments performed on the JS sparse array, in
program order (explicit/range pass, then the placeholder pass). -/
def seqAssigns (entries : List (String × JValue)) : List (Nat × JValue) :=
  let acc := seqCollect entries
  acc.assigns ++ dashAssign acc.claimed acc.dashes 0

/-- The value left at index `i` after all assignments (last write wins). -/
def lastAssign (assigns : List (Nat × JValue)) (i : Nat) : Option JValue :=
  (assigns.reverse.find? (fun p => p.1 == i)).map (fun p => p.2)

/-- The sequence branch of `_astToObject`: apply all assignments, fill
every hole up to the highest assigned index with the number `0`, and fall
back to the inline payload when no assignment happened (the
`array.length === 0` check; the payload is always an array here, so the
`Array.isArray` guard always passes). -/
def reconcileSeq (entries : List (String × JValue)) (payload : List JValue) : List JValue :=
  let assigns := seqAssigns entries
  let len := assigns.foldl (fun m p => max m (p.1 + 1)) 0
  if assigns.isEmpty then payload
  else (List.range len).map (fun i => (lastAssign assigns i).getD (.num 0))

/-- `SimpleParser._astToObject`.  Scalar nodes return their value; mapping
nodes rebuild from children only (the JS object branch never reads
`astNode.value`, which loses top-level inline object literals); sequence
nodes without a `children` field return their inline payload, the rest
reconcile.  Fuel bounds the tree depth (`astSize` suffices). -/
def astToObject : Nat → Ast → JValue
  | 0, _ => .null
  | f + 1, a =>
    match a with
    | .anull _ => .null
    | .anum _ q => .num q
    | .astr _ s => .str s
    | .aobj _ _ children =>
      .obj ((children.getD []).foldl (fun acc c => objInsert acc c.key (astToObject f c)) [])
    | .aarr _ payload children =>
      match children with
      | none => .arr payload
      | some cs => .arr (reconcileSeq (cs.map (fun c => (c.key, astToObject f c))) payload)

/-! Node count of a parse tree (computable, kernel-reducing); it exceeds
the tree depth, hence is a sufficient fuel for `astToObject`. -/
mutual
def astSize : Ast → Nat
  | .anull _ => 1
  | .anum _ _ => 1
  | .astr _ _ => 1
  | .aobj _ _ children => astSizeO children + 1
  | .aarr _ _ children => astSizeO children + 1
def astSizeO : Option (List Ast) → Nat
  | none => 0
  | some cs => astSizeL cs
def astSizeL : List Ast → Nat
  | [] => 0
  | c :: rest => astSize c + astSizeL rest
end

/-- The logical lines of a document: preprocessor followed by the line
reconstructor (`parse` lines 18–19 of the source). -/
def logicalLines (s : String) : List (List Char) :=
  processMultilineStrings (removeComments s.data)

/-- `SimpleParser.parse`: preprocess, split into logical lines, detect the
indent style (updating the instance fields), build the tree, materialize.
The returned pair carries the instance state after the call. -/
def parseJS (s : String) (opts : POptions) (inst : ParserInstance) :
    Except ParseErr JValue × ParserInstance :=
  match linesToAst (logicalLines s) (detectIndentType (logicalLines s) inst.ind)
      opts.arrayFormat with
  | .error e =>
    (.error e, { inst with ind := some (detectIndentType (logicalLines s) inst.ind) })
  | .ok ast =>
    (.ok (astToObject (astSize ast) ast),
     { inst with ind := some (detectIndentType (logicalLines s) inst.ind) })

/-! ## The serializer (`_objectToSimple` and helpers) -/

/-! Node count of a value (computable, kernel-reducing); it exceeds both
the value's depth and the length of every nested list, hence is a
sufficient fuel for the fueled serializer recursions below. -/
mutual
def jvSize : JValue → Nat
  | .null => 1
  | .num _ => 1
  | .str _ => 1
  | .bool _ => 1
  | .arr l => jvSizeL l + 1
  | .obj es => jvSizeE es + 1
def jvSizeL : List JValue → Nat
  | [] => 1
  | v :: rest => 1 + jvSize v + jvSizeL rest
def jvSizeE : List (String × JValue) → Nat
  | [] => 1
  | (_, v) :: rest => 1 + jvSize v + jvSizeE rest
end

/-- Options of `stringify` (after merging with the defaults); `compact` is
declared by the source but never read. -/
structure SOptions where
  indent : Nat
  indentChar : String
  compact : Bool
  arrayFormat : ArrayFormat
deriving Repr, DecidableEq

/-- The default `stringify` options. -/
def defaultSOptions : SOptions := ⟨2, " ", false, .indexed⟩

/-- `s.repeat n`. -/
def repeatStr : Nat → String → String
  | 0, _ => ""
  | n + 1, s => s ++ repeatStr n s

/-- `SimpleParser._getIndentString`: the indent character repeated
`level * indent` times. -/
def getIndentString (level : Nat) (o : SOptions) : String :=
  repeatStr (level * o.indent) o.indentChar

/-- JavaScript `typeof` on the value model (`typeof null` is
`"object"`). -/
def jsTypeof : JValue → String
  | .null => "object"
  | .num _ => "number"
  | .str _ => "string"
  | .bool _ => "boolean"
  | .arr _ => "object"
  | .obj _ => "object"

/-- First value bound to a key in an entry list (JS property lookup; the
entry lists built by `objInsert` have unique keys). -/
def lookupEntry : List (String × JValue) → String → Option JValue
  | [], _ => none
  | (k', v) :: rest, k => if k' = k then some v else lookupEntry rest k

/-- Elementwise equality of two sequences, given the recursive comparator
(the indexed loop of `_isEqual` after its length check). -/
def eqListGo (eq : JValue → JValue → Bool) : List JValue → List JValue → Bool
  | [], [] => true
  | a :: xs, b :: ys => eq a b && eqListGo eq xs ys
  | _, _ => false

/-- The key loop of `_isEqual` for mappings: every key of the first object
must be bound in the second to an equal value (a missing key compares a
value against `undefined`, which fails the `typeof` check). -/
def eqEntriesGo (eq : JValue → JValue → Bool) (eb : List (String × JValue)) :
    List (String × JValue) → Bool
  | [] => true
  | (k, va) :: rest =>
    (match lookupEntry eb k with
     | some vb => eq va vb
     | none => false) && eqEntriesGo eq eb rest

/-- `SimpleParser._isEqual`: `typeof` gate, null identity, arrays
elementwise after a length check, plain objects by key count plus
per-key recursion (order-independent), scalars by `===`.  The fuel bounds
the recursion depth along the first argument. -/
def isEqualGo : Nat → JValue → JValue → Bool
  | 0, _, _ => false
  | f + 1, a, b =>
    if jsTypeof a ≠ jsTypeof b then false
    else
      match a, b with
      | .null, .null => true
      | .null, _ => false
      | _, .null => false
      | .arr la, .arr lb => la.length == lb.length && eqListGo (isEqualGo f) la lb
      | .arr _, .obj _ => false
      | .obj _, .arr _ => false
      | .obj ea, .obj eb => ea.length == eb.length && eqEntriesGo (isEqualGo f) eb ea
      | .num x, .num y => x == y
      | .str x, .str y => x == y
      | .bool x, .bool y => x == y
      | _, _ => false

/-- `SimpleParser._isEqual` with the fuel instantiated. -/
def isEqual (a b : JValue) : Bool := isEqualGo (jvSize a) a b

/-- `item` is object-typed and non-null in JS (`typeof item === 'object'
&& item !== null`): true exactly for sequences and mappings, empty ones
included. -/
def isObjLike : JValue → Bool
  | .arr _ => true
  | .obj _ => true
  | _ => false

/-- `SimpleParser._shouldInlineArray`.  (The source's second test,
`Array.isArray(item) && item.length > 0`, is unreachable because every
array is already object-typed; it is kept here as in the source.) -/
def shouldInlineArray (l : List JValue) : Bool :=
  if l.isEmpty then true
  else if l.length > 3 then false
  else l.all (fun item =>
    if isObjLike item then false
    else if (match item with | .arr xs => !xs.isEmpty | _ => false) then false
    else true)

/-- `SimpleParser._shouldInlineObject` (same structure over entry
values). -/
def shouldInlineObject (entries : List (String × JValue)) : Bool :=
  if entries.isEmpty then true
  else if entries.length > 3 then false
  else entries.all (fun e =>
    if isObjLike e.2 then false
    else if (match e.2 with | .arr xs => !xs.isEmpty | _ => false) then false
    else true)

/-- Smallest `k` with `d ∣ 10 ^ k` (for the decimal expansion of a
fraction); `d` itself bounds the search. -/
def decExp (d : Nat) : Option Nat :=
  (List.range (d + 1)).find? (fun k => decide (d ∣ 10 ^ k))

/-- Left-pad a digit run with zeros to width `k`. -/
def padZeros (l : List Char) (k : Nat) : List Char :=
  List.replicate (k - l.length) '0' ++ l

/-- JS `Number.prototype.toString` on the modelled numbers: integers in
decimal, non-integers as the shortest exact decimal expansion (every value
the parser can produce has a power-of-ten denominator, for which this
matches the JS shortest-round-trip printing of short literals).  A
denominator dividing no power of ten cannot represent a JS double (doubles
are dyadic), so that branch is outside the modelled range. -/
def numToString (q : Rat) : String :=
  if q.den = 1 then intToStr q.num
  else
    match decExp q.den with
    | some k =>
      let sign := if q.num < 0 then "-" else ""
      let scaled := q.num.natAbs * 10 ^ k / q.den
      let ip := scaled / 10 ^ k
      let fr := scaled % 10 ^ k
      sign ++ natToStr ip ++ "." ++ ⟨padZeros (natToStr fr).data k⟩
    | none => ""

/-- Render each element of an inline sequence, threading the one-shot
flag (`obj.map(item => this._objectToSimple(item, level, options))`). -/
def renderItems (rf : JValue → Bool → String × Bool) :
    List JValue → Bool → List String × Bool
  | [], fl => ([], fl)
  | v :: vs, fl =>
    let (s, fl') := rf v fl
    let (rest, fl'') := renderItems rf vs fl'
    (s :: rest, fl'')

/-- Render each `key: value` pair of an inline mapping. -/
def renderPairs (rf : JValue → Bool → String × Bool) :
    List (String × JValue) → Bool → List String × Bool
  | [], fl => ([], fl)
  | (k, v) :: rest, fl =>
    let (s, fl') := rf v fl
    let (restS, fl'') := renderPairs rf rest fl'
    ((k ++ ": " ++ s) :: restS, fl'')

/-- The `values`-mode block lines of a sequence: one indented element per
line. -/
def valuesLines (rf : JValue → Bool → String × Bool) (indent : String) :
    List JValue → Bool → String × Bool
  | [], fl => ("", fl)
  | v :: vs, fl =>
    let (s, fl') := rf v fl
    let (rest, fl'') := valuesLines rf indent vs fl'
    (indent ++ s ++ "\n" ++ rest, fl'')

/-- The inner scan `while (j < obj.length && this._isEqual(obj[i], obj[j]))
j++` of the indexed serializer; fuel `l.length` always suffices. -/
def scanRun (eqf : JValue → JValue → Bool) (l : List JValue) (a : JValue) :
    Nat → Nat → Nat
  | 0, j => j
  | f + 1, j =>
    if decide (j < l.length) && eqf a (l.getD j .null) then scanRun eqf l a f (j + 1)
    else j

/-- The `indexed`-mode block lines of a sequence: run-length compression of
consecutive equal elements (`start-end: value` for runs longer than one,
`index: value` otherwise); fuel `l.length` always suffices. -/
def indexedLines (rf : JValue → Bool → String × Bool) (eqf : JValue → JValue → Bool)
    (indent : String) (l : List JValue) : Nat → Nat → Bool → String × Bool
  | 0, _, fl => ("", fl)
  | f + 1, i, fl =>
    if i < l.length then
      let a := l.getD i .null
      let j := scanRun eqf l a l.length (i + 1)
      let (s, fl') := rf a fl
      let line :=
        if j - i > 1 then indent ++ natToStr i ++ "-" ++ natToStr (j - 1) ++ ": " ++ s ++ "\n"
        else indent ++ natToStr i ++ ": " ++ s ++ "\n"
      let (rest, fl'') := indexedLines rf eqf indent l f j fl'
      (line ++ rest, fl'')
    else ("", fl)

/-- The block lines of a mapping: one `key: value` line per entry at the
current level, values rendered one level deeper. -/
def objLines (rf : JValue → Bool → String × Bool) (indent : String) :
    List (String × JValue) → Bool → String × Bool
  | [], fl => ("", fl)
  | (k, v) :: rest, fl =>
    let (s, fl') := rf v fl
    let (restS, fl'') := objLines rf indent rest fl'
    (indent ++ k ++ ": " ++ s ++ "\n" ++ restS, fl'')

/-- `SimpleParser._objectToSimple`, with the instance flag `outerParsed`
threaded explicitly (input flag, output flag).  Fuel bounds the recursion
(`jvSize` of the value suffices; the `0` case is unreachable then). -/
def objectToSimpleGo : Nat → JValue → Nat → SOptions → Bool → String × Bool
  | 0, _, _, _, fl => ("", fl)
  | f + 1, v, level, o, fl =>
    match v with
    | .null => ("None", fl)
    | .num q => (numToString q, fl)
    | .bool b => ((if b then "true" else "false"), fl)
    | .str s => ((if needsQuotes s then "\"" ++ escapeString s ++ "\"" else escapeString s), fl)
    | .arr l =>
      if l.isEmpty then ("[]", fl)
      else if shouldInlineArray l then
        let (items, fl') := renderItems (fun x g => objectToSimpleGo f x level o g) l fl
        ("[" ++ String.intercalate ", " items ++ "]", fl')
      else if o.arrayFormat = .values then
        let (body, fl') :=
          valuesLines (fun x g => objectToSimpleGo f x (level + 1) o g)
            (getIndentString (level + 1) o) l fl
        (jsTrimS ("[]\n" ++ body), fl')
      else
        let (body, fl') :=
          indexedLines (fun x g => objectToSimpleGo f x (level + 1) o g) isEqual
            (getIndentString (level + 1) o) l l.length 0 fl
        (jsTrimS ("[]\n" ++ body), fl')
    | .obj entries =>
      if shouldInlineObject entries then
        let (pairs, fl') := renderPairs (fun x g => objectToSimpleGo f x level o g) entries fl
        ("\x7b" ++ String.intercalate ", " pairs ++ "\x7d", fl')
      else
        -- `if (this.outerParsed) result = '{}\n' else this.outerParsed = true`:
        -- the flag is true in both branches afterwards
        let pre := if fl then "\x7b\x7d\n" else ""
        let (body, fl') :=
          objLines (fun x g => objectToSimpleGo f x (level + 1) o g)
            (getIndentString level o) entries true
        (jsTrimS (pre ++ body), fl')

/-- `SimpleParser.stringify`: reset the one-shot flag, render at level 0,
and record the final flag on the instance. -/
def stringifyJS (v : JValue) (o : SOptions) (inst : ParserInstance) : String × ParserInstance :=
  let (out, fl) := objectToSimpleGo (jvSize v) v 0 o false
  (out, { inst with outerParsed := fl })

/-- The claim's error condition at one line of the block parser: the line
is neither blank nor comment-looking, contains no colon, and the
pure-value-sequence exception (format `values`, parent an open sequence
after the pop) does not apply.  `_parseKeyValue` throws `InvalidLine`
exactly here. -/
def lineTriggers (sty : IndentKind × Nat) (fmt : ArrayFormat) (st : PStack)
    (line : List Char) : Prop :=
  (jsTrim line).isEmpty = false ∧
  startsWithL (jsTrim line) "//".data = false ∧
  startsWithL (jsTrim line) "#".data = false ∧
  line.contains ':' = false ∧
  ¬(fmt = .values ∧ parentIsArr (popTo st (getIndentLevel sty line)) = true)

/-- The inline condition asserted by the claim about `_shouldInlineArray`,
modelled from the claim's words for refutation: a scalar or an *empty*
container. -/
def claimScalarOrEmpty : JValue → Bool
  | .null => true
  | .num _ => true
  | .str _ => true
  | .bool _ => true
  | .arr xs => xs.isEmpty
  | .obj es => es.isEmpty

/-- Instance states reachable across calls: the indentation size is never
`0` (the constructor leaves the fields null; every detected style has size
at least 1).  A size-0 space style would divide by zero, where JS produces
`NaN` and the `Nat` model produces `0`, so the stale-state theorems
restrict to these states. -/
def WfIndState : Option (IndentKind × Nat) → Prop
  | none => True
  | some (_, n) => 1 ≤ n

/-! ## Auxiliary lemmas -/

/-- A character other than a backslash passes through the escape decoder
unchanged. -/
theorem decodeEsc_cons_ne (c : Char) (h : c ≠ '\\') (l : List Char) :
    decodeEsc (c :: l) = c :: decodeEsc l := by
  cases l <;> simp [decodeEsc, h]

/-- The escape decoder inverts the escape encoder character by
character. -/
theorem decodeEsc_escapeChars (l : List Char) : decodeEsc (escapeChars l) = l := by
  induction l with
  | nil => rfl
  | cons c rest ih =>
    show decodeEsc (escChar c ++ escapeChars rest) = c :: rest
    by_cases h1 : c = '\n'
    · subst h1; simp [escChar, decodeEsc, ih]
    · by_cases h2 : c = '\t'
      · subst h2; simp [escChar, h1, decodeEsc, ih]
      · by_cases h3 : c = '\\'
        · subst h3; simp [escChar, h1, h2, decodeEsc, ih]
        · by_cases h4 : c = '"'
          · subst h4; simp [escChar, h1, h2, h3, decodeEsc, ih]
          · simp [escChar, h1, h2, h3, h4, decodeEsc_cons_ne c h3, ih]

/-- Characterization of `needsQuotes` by the five quoting conditions. -/
theorem needsQuotes_characterization (s : String) : needsQuotes s = true ↔
    ((∃ c, s.data.head? = some c ∧ c.isDigit = true) ∨
     s = "None" ∨ s = "true" ∨ s = "false" ∨
     ':' ∈ s.data ∨ ',' ∈ s.data ∨ '\x5b' ∈ s.data ∨ '\x5d' ∈ s.data ∨
     '\x7b' ∈ s.data ∨ '\x7d' ∈ s.data ∨
     (∃ c, s.data.head? = some c ∧ jsWs c = true) ∨
     (∃ c, s.data.getLast? = some c ∧ jsWs c = true)) := by
  cases hh : s.data.head? <;> cases hl : s.data.getLast? <;>
    (simp [needsQuotes, hh, hl, List.contains_iff_exists_mem_beq, beq_iff_eq,
      eq_comm (b := (_ : Char))]) <;> tauto

/-- A nonempty sequence inlines exactly when it is short and free of
container elements (empty containers included, because `typeof` classifies
them as objects). -/
theorem shouldInlineArray_nonempty_iff (l : List JValue) (hne : l ≠ []) :
    shouldInlineArray l = true ↔ l.length ≤ 3 ∧ ∀ v ∈ l, isObjLike v = false := by
  unfold shouldInlineArray
  rw [if_neg (by simpa using hne)]
  by_cases h3 : l.length > 3
  · rw [if_pos h3]
    simp; omega
  · rw [if_neg h3]
    simp only [List.all_eq_true]
    constructor
    · intro h
      refine ⟨by omega, fun v hv => ?_⟩
      have := h v hv
      cases v <;> simp_all [isObjLike]
    · rintro ⟨-, h⟩
      intro v hv
      have := h v hv
      cases v <;> simp_all [isObjLike]

/-- The mapping analogue of `shouldInlineArray_nonempty_iff`. -/
theorem shouldInlineObject_nonempty_iff (es : List (String × JValue)) (hne : es ≠ []) :
    shouldInlineObject es = true ↔ es.length ≤ 3 ∧ ∀ e ∈ es, isObjLike e.2 = false := by
  unfold shouldInlineObject
  rw [if_neg (by simpa using hne)]
  by_cases h3 : es.length > 3
  · rw [if_pos h3]
    simp; omega
  · rw [if_neg h3]
    simp only [List.all_eq_true]
    constructor
    · intro h
      refine ⟨by omega, fun e he => ?_⟩
      have := h e he
      rcases e with ⟨k, v⟩
      cases v <;> simp_all [isObjLike]
    · rintro ⟨-, h⟩
      rintro ⟨k, v⟩ he
      have := h (k, v) he
      cases v <;> simp_all [isObjLike]

/-- `renderItems` keeps an already-set one-shot flag set, provided the
element renderer does. -/
theorem renderItems_flag (rf : JValue → Bool → String × Bool)
    (h : ∀ x, (rf x true).2 = true) : ∀ l, (renderItems rf l true).2 = true := by
  intro l
  induction l with
  | nil => rfl
  | cons v vs ih =>
    simp only [renderItems]
    cases hx : rf v true with
    | mk s fl' =>
      have hfl : fl' = true := by have := h v; rw [hx] at this; exact this
      subst hfl
      simpa using ih

/-- `renderPairs` keeps an already-set one-shot flag set. -/
theorem renderPairs_flag (rf : JValue → Bool → String × Bool)
    (h : ∀ x, (rf x true).2 = true) : ∀ l, (renderPairs rf l true).2 = true := by
  intro l
  induction l with
  | nil => rfl
  | cons e es ih =>
    rcases e with ⟨k, v⟩
    simp only [renderPairs]
    cases hx : rf v true with
    | mk s fl' =>
      have hfl : fl' = true := by have := h v; rw [hx] at this; exact this
      subst hfl
      simpa using ih

/-- `valuesLines` keeps an already-set one-shot flag set. -/
theorem valuesLines_flag (rf : JValue → Bool → String × Bool) (indent : String)
    (h : ∀ x, (rf x true).2 = true) : ∀ l, (valuesLines rf indent l true).2 = true := by
  intro l
  induction l with
  | nil => rfl
  | cons v vs ih =>
    simp only [valuesLines]
    cases hx : rf v true with
    | mk s fl' =>
      have hfl : fl' = true := by have := h v; rw [hx] at this; exact this
      subst hfl
      simpa using ih

/-- `objLines` keeps an already-set one-shot flag set. -/
theorem objLines_flag (rf : JValue → Bool → String × Bool) (indent : String)
    (h : ∀ x, (rf x true).2 = true) : ∀ l, (objLines rf indent l true).2 = true := by
  intro l
  induction l with
  | nil => rfl
  | cons e es ih =>
    rcases e with ⟨k, v⟩
    simp only [objLines]
    cases hx : rf v true with
    | mk s fl' =>
      have hfl : fl' = true := by have := h v; rw [hx] at this; exact this
      subst hfl
      simpa using ih

/-- `indexedLines` keeps an already-set one-shot flag set. -/
theorem indexedLines_flag (rf : JValue → Bool → String × Bool) (eqf : JValue → JValue → Bool)
    (indent : String) (l : List JValue)
    (h : ∀ x, (rf x true).2 = true) : ∀ f i, (indexedLines rf eqf indent l f i true).2 = true := by
  intro f
  induction f with
  | zero => intro i; rfl
  | succ f ih =>
    intro i
    simp only [indexedLines]
    by_cases hi : i < l.length
    · rw [if_pos hi]
      cases hx : rf (l.getD i .null) true with
      | mk s fl' =>
        have hfl : fl' = true := by have := h (l.getD i .null); rw [hx] at this; exact this
        subst hfl
        simpa using ih _
    · rw [if_neg hi]

/-- Once the one-shot flag is set it stays set for the rest of the
render. -/
theorem objectToSimpleGo_flag_mono :
    ∀ (fuel : Nat) (v : JValue) (level : Nat) (o : SOptions),
      (objectToSimpleGo fuel v level o true).2 = true := by
  intro fuel
  induction fuel with
  | zero => intros; rfl
  | succ f ih =>
    intro v level o
    cases v with
    | null => rfl
    | num q => rfl
    | bool b => rfl
    | str s => simp [objectToSimpleGo]
    | arr l =>
      simp only [objectToSimpleGo]
      by_cases he : l.isEmpty
      · simp [he]
      · rw [if_neg (by simpa using he)]
        by_cases hinl : shouldInlineArray l = true
        · rw [if_pos hinl]
          simpa using renderItems_flag _ (fun x => ih x level o) l
        · rw [if_neg hinl]
          by_cases hv : o.arrayFormat = ArrayFormat.values
          · rw [if_pos hv]
            simpa using valuesLines_flag _ _ (fun x => ih x (level + 1) o) l
          · rw [if_neg hv]
            simpa using indexedLines_flag _ _ _ l (fun x => ih x (level + 1) o) l.length 0
    | obj entries =>
      simp only [objectToSimpleGo]
      by_cases hinl : shouldInlineObject entries = true
      · rw [if_pos hinl]
        simpa using renderPairs_flag _ (fun x => ih x level o) entries
      · rw [if_neg hinl]
        simpa using objLines_flag _ _ (fun x => ih x (level + 1) o) entries

/-- The run scan of the indexed serializer finds exactly the maximal run of
elements equal to `a` starting at `j` (given enough fuel). -/
theorem scanRun_spec (eqf : JValue → JValue → Bool) (l : List JValue) (a : JValue) :
    ∀ (f j : Nat), l.length ≤ j + f →
      j ≤ scanRun eqf l a f j ∧
      (∀ k, j ≤ k → k < scanRun eqf l a f j → eqf a (l.getD k .null) = true) ∧
      (scanRun eqf l a f j < l.length → eqf a (l.getD (scanRun eqf l a f j) .null) = false) ∧
      scanRun eqf l a f j ≤ max j l.length := by
  intro f
  induction f with
  | zero =>
    intro j hj
    simp only [scanRun]
    exact ⟨le_refl j, fun k hk1 hk2 => absurd hk2 (by omega), fun hlt => absurd hlt (by omega),
      le_max_left _ _⟩
  | succ f ih =>
    intro j hj
    simp only [scanRun]
    by_cases hc : (decide (j < l.length) && eqf a (l.getD j .null)) = true
    · rw [if_pos hc]
      have hc' := Bool.and_eq_true _ _ ▸ hc
      have hjl : j < l.length := by simpa using hc'.1
      have heq : eqf a (l.getD j .null) = true := hc'.2
      obtain ⟨ih1, ih2, ih3, ih4⟩ := ih (j + 1) (by omega)
      refine ⟨by omega, fun k hk1 hk2 => ?_, ih3, by omega⟩
      rcases Nat.eq_or_lt_of_le hk1 with h | h
      · subst h; exact heq
      · exact ih2 k h hk2
    · rw [if_neg hc]
      refine ⟨le_refl j, fun k hk1 hk2 => absurd hk2 (by omega), fun hlt => ?_, le_max_left _ _⟩
      by_cases he : eqf a (l.getD j .null) = true
      · exact absurd (by rw [decide_eq_true hlt, he]; rfl) hc
      · simpa using he

/-- Gap fill: a position below the array length that no assignment ever
touched materializes as the number `0`. -/
theorem reconcileSeq_gap_fill (entries : List (String × JValue)) (payload : List JValue)
    (i : Nat) (hne : seqAssigns entries ≠ [])
    (hi : i < (reconcileSeq entries payload).length)
    (hun : ∀ p ∈ seqAssigns entries, p.1 ≠ i) :
    (reconcileSeq entries payload)[i]? = some (JValue.num 0) := by
  unfold reconcileSeq
  rw [if_neg (by simpa using hne)]
  have hi' : i <
      (List.range (List.foldl (fun m p => max m (p.1 + 1)) 0 (seqAssigns entries))).length := by
    unfold reconcileSeq at hi
    rw [if_neg (by simpa using hne)] at hi
    simpa using hi
  rw [List.getElem?_map]
  rw [List.getElem?_range (by simpa using hi')]
  rw [Option.map_some']
  congr 1
  unfold lastAssign
  cases hf : (seqAssigns entries).reverse.find? (fun p => p.1 == i) with
  | none => rfl
  | some p =>
    have hmem := List.mem_of_find?_eq_some hf
    have hp := List.find?_some hf
    rw [List.mem_reverse] at hmem
    exact absurd (by simpa using hp) (hun p hmem)

/-! ## Claims -/

set_option maxRecDepth 400000 in
/-- C1: the round-trip claim `parse(stringify(v)) == v` fails on the code.
The value `{a: 1, b: 2, c: 3, k: "a#b"}` is produced by `parse` (first
conjunct), yet `stringify` emits the string `a#b` unquoted
(`_needsQuotes` does not treat `#` as special), so reparsing strips
`#b` as a line comment and yields `{…, k: "a"}`, a different value. -/
theorem c1_roundtrip_failure :
    (parseJS "a: 1\nb: 2\nc: 3\nk: \"a#b\"" defaultPOptions freshInstance).1 =
      .ok (.obj [("a", .num 1), ("b", .num 2), ("c", .num 3), ("k", .str "a#b")]) ∧
    (stringifyJS (.obj [("a", .num 1), ("b", .num 2), ("c", .num 3), ("k", .str "a#b")])
      defaultSOptions freshInstance).1 = "a: 1\nb: 2\nc: 3\nk: a#b" ∧
    (parseJS "a: 1\nb: 2\nc: 3\nk: a#b" defaultPOptions freshInstance).1 =
      .ok (.obj [("a", .num 1), ("b", .num 2), ("c", .num 3), ("k", .str "a")]) ∧
    JValue.obj [("a", .num 1), ("b", .num 2), ("c", .num 3), ("k", .str "a")] ≠
      JValue.obj [("a", .num 1), ("b", .num 2), ("c", .num 3), ("k", .str "a#b")] :=
  ⟨rfl, rfl, rfl, by decide⟩

set_option maxRecDepth 400000 in
/-- C3: the materializer's sequence-index reconciliation.  First conjunct:
the concrete sequence block `1-3: 0`, `5-6: 1`, `-: 0` materializes as
`[0,0,0,0,0,1,1]` (range placement, placeholder at the lowest unclaimed
index 0, gap at index 4 filled with `0`).  Second conjunct: in general,
every position below the reconciled length that no explicit, range or
placeholder assignment touched is filled with the number `0`. -/
theorem c3_sequence_reconciliation :
    (parseJS "test: []\n    1-3: 0\n    5-6: 1\n    -: 0" defaultPOptions freshInstance).1 =
      .ok (.obj [("test", .arr [.num 0, .num 0, .num 0, .num 0, .num 0, .num 1, .num 1])]) ∧
    (∀ (entries : List (String × JValue)) (payload : List JValue) (i : Nat),
      seqAssigns entries ≠ [] →
      i < (reconcileSeq entries payload).length →
      (∀ p ∈ seqAssigns entries, p.1 ≠ i) →
      (reconcileSeq entries payload)[i]? = some (JValue.num 0)) :=
  ⟨rfl, reconcileSeq_gap_fill⟩

/-- Witness for C3's general conjunct at the claim's concrete block: index
4 is untouched and gap-fills with `0`. -/
theorem c3_sequence_reconciliation_witness :
    (reconcileSeq [("1-3", JValue.num 0), ("5-6", JValue.num 1), ("-", JValue.num 0)] [])[4]? =
      some (JValue.num 0) :=
  c3_sequence_reconciliation.2
    [("1-3", JValue.num 0), ("5-6", JValue.num 1), ("-", JValue.num 0)] [] 4
    (by decide) (by decide) (by decide)

set_option maxRecDepth 400000 in
/-- C4: run-length compression in `indexed` mode.  First conjunct: the
claim's concrete sequence serializes to exactly the lines `0-2: 1`, `3: 2`,
`4-5: 3`, `6-9: 4`, `10: 5`.  Second conjunct: the serializer's run scan
returns exactly the maximal run of consecutive elements equal to the run
head.  Remaining conjuncts: the structural equality used for runs compares
mappings by key set, order-independently, and sequences elementwise. -/
theorem c4_run_length_compression :
    (stringifyJS (.arr [.num 1, .num 1, .num 1, .num 2, .num 3, .num 3, .num 4, .num 4,
        .num 4, .num 4, .num 5]) defaultSOptions freshInstance).1 =
      "[]\n  0-2: 1\n  3: 2\n  4-5: 3\n  6-9: 4\n  10: 5" ∧
    (∀ (eqf : JValue → JValue → Bool) (l : List JValue) (a : JValue) (f j : Nat),
      l.length ≤ j + f →
      j ≤ scanRun eqf l a f j ∧
      (∀ k, j ≤ k → k < scanRun eqf l a f j → eqf a (l.getD k .null) = true) ∧
      (scanRun eqf l a f j < l.length → eqf a (l.getD (scanRun eqf l a f j) .null) = false) ∧
      scanRun eqf l a f j ≤ max j l.length) ∧
    isEqual (.obj [("a", .num 1), ("b", .num 2)]) (.obj [("b", .num 2), ("a", .num 1)]) = true ∧
    isEqual (.arr [.num 1, .num 2]) (.arr [.num 1, .num 2]) = true ∧
    isEqual (.num 1) (.num 2) = false :=
  ⟨rfl, scanRun_spec, rfl, rfl, rfl⟩

/-- Witness for C4's run-scan conjunct: on `[1, 1, 1, 2]` the scan started
after index 0 stops exactly at index 3, the end of the maximal run of
`1`s. -/
theorem c4_run_length_compression_witness :
    1 ≤ scanRun isEqual [JValue.num 1, JValue.num 1, JValue.num 1, JValue.num 2]
        (JValue.num 1) 4 1 ∧
    (∀ k, 1 ≤ k →
      k < scanRun isEqual [JValue.num 1, JValue.num 1, JValue.num 1, JValue.num 2]
          (JValue.num 1) 4 1 →
      isEqual (JValue.num 1)
        ([JValue.num 1, JValue.num 1, JValue.num 1, JValue.num 2].getD k .null) = true) ∧
    (scanRun isEqual [JValue.num 1, JValue.num 1, JValue.num 1, JValue.num 2]
        (JValue.num 1) 4 1 < 4 →
      isEqual (JValue.num 1)
        ([JValue.num 1, JValue.num 1, JValue.num 1, JValue.num 2].getD
          (scanRun isEqual [JValue.num 1, JValue.num 1, JValue.num 1, JValue.num 2]
            (JValue.num 1) 4 1) .null) = false) ∧
    scanRun isEqual [JValue.num 1, JValue.num 1, JValue.num 1, JValue.num 2]
        (JValue.num 1) 4 1 ≤ max 1 4 :=
  c4_run_length_compression.2.1 isEqual
    [JValue.num 1, JValue.num 1, JValue.num 1, JValue.num 2] (JValue.num 1) 4 1 (by decide)

/-- C5 counterexample: `[[]]` satisfies the claim's inline condition (one
element, an empty container), yet `_shouldInlineArray` rejects it and the
serializer emits block form. -/
theorem c5_inline_claim_counterexample :
    ([JValue.arr []].length ≤ 3 ∧ ∀ v ∈ [JValue.arr []], claimScalarOrEmpty v = true) ∧
    shouldInlineArray [JValue.arr []] = false ∧
    (stringifyJS (JValue.arr [JValue.arr []]) defaultSOptions freshInstance).1 = "[]\n  0: []" :=
  ⟨⟨by decide, by decide⟩, rfl, rfl⟩

set_option maxRecDepth 400000 in
/-- C5 (amended): a non-empty sequence or mapping serializes inline exactly
when it has at most 3 elements/entries and every element or entry value is
a scalar — any sequence- or mapping-valued element, *empty ones included*,
forces block form.  In particular 3 scalar entries render inline and 4
render as a block (final four conjuncts). -/
theorem c5_inline_threshold :
    (∀ l : List JValue, l ≠ [] →
      (shouldInlineArray l = true ↔ l.length ≤ 3 ∧ ∀ v ∈ l, isObjLike v = false)) ∧
    (∀ es : List (String × JValue), es ≠ [] →
      (shouldInlineObject es = true ↔ es.length ≤ 3 ∧ ∀ e ∈ es, isObjLike e.2 = false)) ∧
    (stringifyJS (.arr [.num 1, .num 2, .num 3]) defaultSOptions freshInstance).1 =
      "[1, 2, 3]" ∧
    (stringifyJS (.arr [.num 1, .num 2, .num 3, .num 4]) defaultSOptions freshInstance).1 =
      "[]\n  0: 1\n  1: 2\n  2: 3\n  3: 4" ∧
    (stringifyJS (.obj [("a", .num 1), ("b", .num 2), ("c", .num 3)])
      defaultSOptions freshInstance).1 = "\x7ba: 1, b: 2, c: 3\x7d" ∧
    (stringifyJS (.obj [("a", .num 1), ("b", .num 2), ("c", .num 3), ("d", .num 4)])
      defaultSOptions freshInstance).1 = "a: 1\nb: 2\nc: 3\nd: 4" :=
  ⟨shouldInlineArray_nonempty_iff, shouldInlineObject_nonempty_iff, rfl, rfl, rfl, rfl⟩

/-- Witness for C5's quantified conjuncts at concrete inputs. -/
theorem c5_inline_threshold_witness :
    (shouldInlineArray [JValue.num 1] = true ↔
      [JValue.num 1].length ≤ 3 ∧ ∀ v ∈ [JValue.num 1], isObjLike v = false) ∧
    (shouldInlineObject [("a", JValue.num 1)] = true ↔
      [("a", JValue.num 1)].length ≤ 3 ∧
        ∀ e ∈ [("a", JValue.num 1)], isObjLike e.2 = false) :=
  ⟨c5_inline_threshold.1 [JValue.num 1] (by decide),
   c5_inline_threshold.2.1 [("a", JValue.num 1)] (by decide)⟩

/-- C6: the serializer wraps the escape-encoded text in double quotes
exactly when `_needsQuotes` fires (first conjunct, the string branch of
`_objectToSimple`), and `_needsQuotes` holds exactly under the claim's five
conditions (second conjunct).  Concretely, `21` serializes quoted, `hello`
unquoted, and `a: b` quoted. -/
theorem c6_string_quoting :
    (∀ (f level : Nat) (o : SOptions) (fl : Bool) (s : String),
      objectToSimpleGo (f + 1) (.str s) level o fl =
        ((if needsQuotes s then "\"" ++ escapeString s ++ "\"" else escapeString s), fl)) ∧
    (∀ s : String, needsQuotes s = true ↔
      ((∃ c, s.data.head? = some c ∧ c.isDigit = true) ∨
       s = "None" ∨ s = "true" ∨ s = "false" ∨
       ':' ∈ s.data ∨ ',' ∈ s.data ∨ '\x5b' ∈ s.data ∨ '\x5d' ∈ s.data ∨
       '\x7b' ∈ s.data ∨ '\x7d' ∈ s.data ∨
       (∃ c, s.data.head? = some c ∧ jsWs c = true) ∨
       (∃ c, s.data.getLast? = some c ∧ jsWs c = true))) ∧
    (stringifyJS (.str "21") defaultSOptions freshInstance).1 = "\"21\"" ∧
    (stringifyJS (.str "hello") defaultSOptions freshInstance).1 = "hello" ∧
    (stringifyJS (.str "a: b") defaultSOptions freshInstance).1 = "\"a: b\"" :=
  ⟨fun _ _ _ _ _ => rfl, needsQuotes_characterization, rfl, rfl, rfl⟩

/-- C7: the one-shot `{}` marker policy.  First conjunct: `stringify`
starts every call with the flag reset to false.  Second group: a block
(non-inline) mapping rendered with the flag still false emits no marker and
leaves the flag set, while with the flag already set it is preceded by the
literal `\x7b\x7d` marker line; in both cases the flag is true afterwards.
Last conjunct: once set, the flag remains set for the rest of the call. -/
theorem c7_mapping_marker_one_shot :
    (∀ (v : JValue) (o : SOptions) (inst : ParserInstance),
      stringifyJS v o inst =
        ((objectToSimpleGo (jvSize v) v 0 o false).1,
         { inst with outerParsed := (objectToSimpleGo (jvSize v) v 0 o false).2 })) ∧
    (∀ (f level : Nat) (o : SOptions) (entries : List (String × JValue)),
      shouldInlineObject entries = false →
      objectToSimpleGo (f + 1) (.obj entries) level o false =
        (jsTrimS (objLines (fun x g => objectToSimpleGo f x (level + 1) o g)
            (getIndentString level o) entries true).1,
         (objLines (fun x g => objectToSimpleGo f x (level + 1) o g)
            (getIndentString level o) entries true).2) ∧
      objectToSimpleGo (f + 1) (.obj entries) level o true =
        (jsTrimS ("\x7b\x7d\n" ++ (objLines (fun x g => objectToSimpleGo f x (level + 1) o g)
            (getIndentString level o) entries true).1),
         (objLines (fun x g => objectToSimpleGo f x (level + 1) o g)
            (getIndentString level o) entries true).2) ∧
      (objectToSimpleGo (f + 1) (.obj entries) level o false).2 = true ∧
      (objectToSimpleGo (f + 1) (.obj entries) level o true).2 = true) ∧
    (∀ (fuel : Nat) (v : JValue) (level : Nat) (o : SOptions),
      (objectToSimpleGo fuel v level o true).2 = true) := by
  refine ⟨fun v o inst => rfl, fun f level o entries hbl => ?_, objectToSimpleGo_flag_mono⟩
  have h1 : objectToSimpleGo (f + 1) (.obj entries) level o false =
      (jsTrimS (objLines (fun x g => objectToSimpleGo f x (level + 1) o g)
          (getIndentString level o) entries true).1,
       (objLines (fun x g => objectToSimpleGo f x (level + 1) o g)
          (getIndentString level o) entries true).2) := by
    simp [objectToSimpleGo, hbl]
  have h2 : objectToSimpleGo (f + 1) (.obj entries) level o true =
      (jsTrimS ("\x7b\x7d\n" ++ (objLines (fun x g => objectToSimpleGo f x (level + 1) o g)
          (getIndentString level o) entries true).1),
       (objLines (fun x g => objectToSimpleGo f x (level + 1) o g)
          (getIndentString level o) entries true).2) := by
    simp [objectToSimpleGo, hbl]
  have h3 : (objLines (fun x g => objectToSimpleGo f x (level + 1) o g)
      (getIndentString level o) entries true).2 = true :=
    objLines_flag _ _ (fun x => objectToSimpleGo_flag_mono f x (level + 1) o) entries
  exact ⟨h1, h2, by rw [h1]; exact h3, by rw [h2]; exact h3⟩

/-- Witness for C7's block-mapping conjunct at a concrete non-inline
mapping. -/
theorem c7_mapping_marker_one_shot_witness :
    (objectToSimpleGo 6 (.obj [("a", JValue.num 1), ("b", JValue.num 2), ("c", JValue.num 3),
        ("d", JValue.num 4)]) 0 defaultSOptions false).2 = true :=
  (c7_mapping_marker_one_shot.2.1 5 0 defaultSOptions
    [("a", JValue.num 1), ("b", JValue.num 2), ("c", JValue.num 3), ("d", JValue.num 4)]
    (by decide)).2.2.1

/-- C9: whenever `parse` succeeds, the result is a mapping: the parser
wraps the document in a synthetic root mapping node, and the materializer
turns that node into a mapping value. -/
theorem c9_parse_yields_mapping (s : String) (opts : POptions) (inst : ParserInstance)
    (v : JValue) (st : ParserInstance) (h : parseJS s opts inst = (.ok v, st)) :
    ∃ entries, v = JValue.obj entries := by
  unfold parseJS at h
  cases hl : linesToAst (logicalLines s) (detectIndentType (logicalLines s) inst.ind)
      opts.arrayFormat with
  | error e => rw [hl] at h; simp at h
  | ok ast =>
    rw [hl] at h
    simp only [Prod.mk.injEq, Except.ok.injEq] at h
    unfold linesToAst at hl
    cases hp : processLines (detectIndentType (logicalLines s) inst.ind) opts.arrayFormat
        (logicalLines s) ⟨[], []⟩ with
    | error e => rw [hp] at hl; simp at hl
    | ok pst =>
      rw [hp] at hl
      simp only [Except.ok.injEq] at hl
      subst hl
      obtain ⟨h1, -⟩ := h
      subst h1
      exact ⟨_, rfl⟩

/-- Witness for C9 at the one-line document `a: 1`. -/
theorem c9_parse_yields_mapping_witness :
    ∃ entries, (JValue.obj [("a", JValue.num 1)]) = JValue.obj entries :=
  c9_parse_yields_mapping "a: 1" defaultPOptions freshInstance _ _ rfl

/-- C10: the parser's escape decoder inverts the serializer's escape
encoder on every string (backslashes and quote characters included): the
encoder maps linefeed, tab, backslash and double quote to two-character
escapes, and the decoder maps exactly those back. -/
theorem c10_escape_roundtrip :
    (∀ l : List Char, decodeEsc (escapeChars l) = l) ∧
    (∀ s : String, parseString (escapeString s) = s) := by
  refine ⟨decodeEsc_escapeChars, fun s => ?_⟩
  cases s with
  | mk data => exact congrArg String.mk (decodeEsc_escapeChars data)

/-- A line with no leading whitespace sits at indent level 0 under any
style. -/
theorem getIndentLevel_of_unindented (sty : IndentKind × Nat) (line : List Char)
    (h : line.takeWhile jsWs = []) : getIndentLevel sty line = 0 := by
  unfold getIndentLevel
  cases hk : sty.1 with
  | tab =>
    cases line with
    | nil => simp
    | cons c rest =>
      simp only [List.takeWhile] at h ⊢
      cases hw : jsWs c with
      | true => rw [hw] at h; simp at h
      | false =>
        have hc : (c = '\t') = False := by
          simp only [eq_iff_iff, iff_false]
          intro hct
          subst hct
          simp [jsWs] at hw
        simp [hc]
  | space => rw [h]; simp

/-- When the indent probe finds nothing, every non-skipped line has no
leading whitespace. -/
theorem findLead_none_unindented (lines : List (List Char)) (h : findLead lines = none) :
    ∀ l ∈ lines, lineSkipped l = false → l.takeWhile jsWs = [] := by
  induction lines with
  | nil => intro l hl; simp at hl
  | cons x rest ih =>
    intro l hl hsk
    unfold findLead at h
    by_cases hx : lineSkipped x = true
    · rw [if_pos hx] at h
      cases hl with
      | head => rw [hx] at hsk; simp at hsk
      | tail _ hl => exact ih h l hl hsk
    · rw [if_neg hx] at h
      by_cases hlead : (x.takeWhile jsWs).isEmpty
      · rw [if_pos hlead] at h
        cases hl with
        | head => simpa using hlead
        | tail _ hl => exact ih h l hl hsk
      · rw [if_neg hlead] at h
        simp at h

/-- `processLine` depends on the style only through the line's indent
level. -/
theorem processLine_congr (sty1 sty2 : IndentKind × Nat) (fmt : ArrayFormat) (st : PStack)
    (line : List Char)
    (h : lineSkipped line = true ∨ getIndentLevel sty1 line = getIndentLevel sty2 line) :
    processLine sty1 fmt st line = processLine sty2 fmt st line := by
  unfold processLine
  by_cases h1 : (jsTrim line).isEmpty
  · rw [if_pos h1, if_pos h1]
  · rw [if_neg h1, if_neg h1]
    by_cases h2 : (startsWithL (jsTrim line) "//".data || startsWithL (jsTrim line) "#".data) = true
    · rw [if_pos h2, if_pos h2]
    · rw [if_neg h2, if_neg h2]
      have hlev : getIndentLevel sty1 line = getIndentLevel sty2 line := by
        rcases h with h | h
        · exfalso
          unfold lineSkipped at h
          rw [Bool.or_eq_true, Bool.or_eq_true] at h
          rcases h with (h | h) | h
          · exact h1 h
          · exact h2 (by simp [h])
          · exact h2 (by simp [h])
        · exact h
      rw [hlev]

/-- Congruence of the whole line fold in the indentation style. -/
theorem processLines_congr (sty1 sty2 : IndentKind × Nat) (fmt : ArrayFormat) :
    ∀ (lines : List (List Char)) (st : PStack),
      (∀ l ∈ lines, lineSkipped l = true ∨ getIndentLevel sty1 l = getIndentLevel sty2 l) →
      processLines sty1 fmt lines st = processLines sty2 fmt lines st := by
  intro lines
  induction lines with
  | nil => intro st _; rfl
  | cons x rest ih =>
    intro st h
    unfold processLines
    rw [processLine_congr sty1 sty2 fmt st x (h x (List.mem_cons_self x rest))]
    cases processLine sty2 fmt st x with
    | error e => rfl
    | ok st' => exact ih st' (fun l hl => h l (List.mem_cons_of_mem x hl))

/-- C8 counterexample: the indentation-style fields are *not* reset at the
start of a `parse` call.  Parsing the unindented document `a: 1` from an
instance whose previous call detected tab style leaves the stale tab style
in place, while the same call on a fresh instance detects the default
space/2 — contradicting "parsing a document with no indented line always
uses the default style space with size 2". -/
theorem c8_reset_claim_counterexample :
    (parseJS "a: 1" defaultPOptions ⟨some (.tab, 1), false⟩).2.ind = some (.tab, 1) ∧
    some ((IndentKind.tab, 1)) ≠ some ((IndentKind.space, 2)) ∧
    (parseJS "a: 1" defaultPOptions freshInstance).2.ind = some (.space, 2) :=
  ⟨rfl, by decide, rfl⟩

/-- C8 (amended): the one-shot serialization flag is reset at the start of
every `stringify` call, and although `parse` does not reset the detected
indentation style, each call's *result* depends only on that call's
arguments: whenever the document has an indented line the style is
re-detected from it, and when it has none every line sits at level 0 under
any well-formed style, so two invocations of `parse` (or `stringify`) with
the same input and options return identical results regardless of what was
parsed or stringified before. -/
theorem c8_call_determinism :
    (∀ (s : String) (opts : POptions) (st1 st2 : ParserInstance),
      WfIndState st1.ind → WfIndState st2.ind →
      (parseJS s opts st1).1 = (parseJS s opts st2).1) ∧
    (∀ (v : JValue) (o : SOptions) (st1 st2 : ParserInstance),
      (stringifyJS v o st1).1 = (stringifyJS v o st2).1) := by
  constructor
  · intro s opts st1 st2 _ _
    unfold parseJS
    cases hf : findLead (logicalLines s) with
    | some lead =>
      have hdet : detectIndentType (logicalLines s) st1.ind =
          detectIndentType (logicalLines s) st2.ind := by
        unfold detectIndentType
        rw [hf]
      rw [hdet]
      cases hv : linesToAst (logicalLines s) (detectIndentType (logicalLines s) st2.ind)
          opts.arrayFormat <;> simp [hv]
    | none =>
      have hlines : ∀ l ∈ logicalLines s, lineSkipped l = true ∨
          getIndentLevel (detectIndentType (logicalLines s) st1.ind) l =
          getIndentLevel (detectIndentType (logicalLines s) st2.ind) l := by
        intro l hl
        by_cases hsk : lineSkipped l = true
        · exact Or.inl hsk
        · refine Or.inr ?_
          have hz := findLead_none_unindented _ hf l hl (by simpa using hsk)
          rw [getIndentLevel_of_unindented _ _ hz, getIndentLevel_of_unindented _ _ hz]
      have hlta : linesToAst (logicalLines s) (detectIndentType (logicalLines s) st1.ind)
          opts.arrayFormat =
          linesToAst (logicalLines s) (detectIndentType (logicalLines s) st2.ind)
          opts.arrayFormat := by
        unfold linesToAst
        rw [processLines_congr _ _ _ _ _ hlines]
      rw [hlta]
      cases hv : linesToAst (logicalLines s) (detectIndentType (logicalLines s) st2.ind)
          opts.arrayFormat <;> simp [hv]
  · intro v o st1 st2
    rfl

/-- Witness for C8's determinism at a concrete document and two concrete
states (a fresh instance and a stale tab-style instance). -/
theorem c8_call_determinism_witness :
    (parseJS "a: 1" defaultPOptions freshInstance).1 =
      (parseJS "a: 1" defaultPOptions ⟨some (.tab, 1), false⟩).1 :=
  c8_call_determinism.1 "a: 1" defaultPOptions freshInstance ⟨some (.tab, 1), false⟩
    trivial (by exact le_refl 1)

/-- The first-colon split fails exactly when the line has no colon. -/
theorem splitAtChar_none_iff (sep : Char) : ∀ l : List Char, splitAtChar sep l = none ↔ sep ∉ l := by
  intro l
  induction l with
  | nil => simp [splitAtChar]
  | cons c rest ih =>
    unfold splitAtChar
    by_cases hc : c = sep
    · subst hc
      simp
    · rw [if_neg hc]
      cases hs : splitAtChar sep rest with
      | none =>
        rw [hs] at ih
        simp only [true_iff] at ih
        simp only [List.mem_cons, not_or]
        exact iff_of_true trivial ⟨fun h => hc h.symm, ih⟩
      | some p =>
        obtain ⟨a, b⟩ := p
        rw [hs] at ih
        simp at ih
        simp [List.mem_cons, ih]

/-- `dropWhile` never removes a character that fails the predicate. -/
theorem mem_dropWhile_of_not_pred {p : Char → Bool} {c : Char} (hc : p c = false) :
    ∀ l : List Char, c ∈ l.dropWhile p ↔ c ∈ l := by
  intro l
  induction l with
  | nil => simp
  | cons x rest ih =>
    by_cases hx : p x = true
    · rw [List.dropWhile_cons_of_pos hx, ih]
      constructor
      · exact fun h => List.mem_cons_of_mem x h
      · intro h
        cases h with
        | head => rw [hx] at hc; exact absurd hc (by simp)
        | tail _ h => exact h
    · rw [List.dropWhile_cons_of_neg (by simpa using hx)]

/-- Trimming never removes a non-whitespace character. -/
theorem mem_jsTrim_iff {c : Char} (hc : jsWs c = false) (l : List Char) :
    c ∈ jsTrim l ↔ c ∈ l := by
  unfold jsTrim
  rw [List.mem_reverse, mem_dropWhile_of_not_pred hc, List.mem_reverse,
    mem_dropWhile_of_not_pred hc]

/-- `List.contains` to membership. -/
theorem contains_eq_true_iff_mem (l : List Char) (c : Char) : l.contains c = true ↔ c ∈ l := by
  rw [List.contains_iff_exists_mem_beq]
  constructor
  · rintro ⟨x, hx, hbeq⟩
    exact (eq_of_beq hbeq) ▸ hx
  · intro h
    exact ⟨c, h, by simp⟩

/-- `includes(':')` agrees on a line and its trimmed form (the colon is not
whitespace). -/
theorem contains_colon_of_trim (line : List Char) :
    (jsTrim line).contains ':' = line.contains ':' := by
  have h1 := mem_jsTrim_iff (c := ':') (by decide) line
  have e1 := contains_eq_true_iff_mem (jsTrim line) ':'
  have e2 := contains_eq_true_iff_mem line ':'
  cases hg : (jsTrim line).contains ':' <;> cases hh : line.contains ':' <;> try rfl
  · have hx := e1.mpr (h1.mpr (e2.mp hh))
    rw [hg] at hx
    exact hx
  · have hx := e2.mpr (h1.mp (e1.mp hg))
    rw [hh] at hx
    exact hx.symm

/-- One line of the block parser fails exactly under the claim's error
condition. -/
theorem processLine_error_iff (sty : IndentKind × Nat) (fmt : ArrayFormat) (st : PStack)
    (line : List Char) :
    (∃ e, processLine sty fmt st line = .error e) ↔ lineTriggers sty fmt st line := by
  unfold processLine lineTriggers
  by_cases h1 : (jsTrim line).isEmpty
  · rw [if_pos h1]
    simp [h1]
  · rw [if_neg h1]
    by_cases h2 : (startsWithL (jsTrim line) "//".data || startsWithL (jsTrim line) "#".data) = true
    · rw [if_pos h2]
      rw [Bool.or_eq_true] at h2
      constructor
      · rintro ⟨e, he⟩
        exact absurd he (by simp)
      · rintro ⟨-, hs1, hs2, -, -⟩
        rcases h2 with h2 | h2
        · rw [hs1] at h2; exact absurd h2 (by simp)
        · rw [hs2] at h2; exact absurd h2 (by simp)
    · rw [if_neg h2]
      rw [Bool.or_eq_true, not_or] at h2
      obtain ⟨hs1, hs2⟩ := h2
      by_cases h3 : fmt = ArrayFormat.values ∧
          parentIsArr (popTo st (getIndentLevel sty line)) = true ∧
          ¬line.contains ':' = true
      · rw [if_pos h3]
        constructor
        · rintro ⟨e, he⟩
          exact absurd he (by simp)
        · rintro ⟨-, -, -, -, hexc⟩
          exact absurd ⟨h3.1, h3.2.1⟩ hexc
      · rw [if_neg h3]
        cases hk : splitAtChar ':' (jsTrim line) with
        | none =>
          have hnc : ':' ∉ jsTrim line := (splitAtChar_none_iff ':' (jsTrim line)).mp hk
          have hnc' : line.contains ':' = false := by
            rw [← contains_colon_of_trim]
            cases hg : (jsTrim line).contains ':'
            · rfl
            · exact absurd (contains_eq_true_iff_mem _ _ |>.mp hg) hnc
          constructor
          · rintro ⟨e, he⟩
            refine ⟨by simpa using h1, by simpa using hs1, by simpa using hs2, hnc', ?_⟩
            intro hx
            refine h3 ⟨hx.1, hx.2, ?_⟩
            rw [hnc']
            simp
          · rintro _
            refine ⟨.invalidLine, ?_⟩
            simp [parseKeyValue, hk]
        | some p =>
          obtain ⟨a, b⟩ := p
          have hcc : ':' ∈ jsTrim line := by
            by_contra hn
            rw [← splitAtChar_none_iff ':' (jsTrim line)] at hn
            rw [hn] at hk
            exact absurd hk (by simp)
          have hcc' : line.contains ':' = true := by
            rw [← contains_colon_of_trim]
            exact (contains_eq_true_iff_mem _ _).mpr hcc
          constructor
          · rintro ⟨e, he⟩
            simp only [parseKeyValue, hk] at he
            cases hcl : classifyToken (jsTrim line).length (jsTrim b) <;>
              simp [hcl] at he
          · rintro ⟨-, -, -, hnc, -⟩
            rw [hcc'] at hnc
            exact absurd hnc (by simp)

/-- The line fold fails exactly when some line is reached with the error
condition (its prefix having processed cleanly). -/
theorem processLines_error_iff (sty : IndentKind × Nat) (fmt : ArrayFormat) :
    ∀ (lines : List (List Char)) (st : PStack),
      (∃ e, processLines sty fmt lines st = .error e) ↔
      (∃ pre l post, lines = pre ++ l :: post ∧
        ∃ st', processLines sty fmt pre st = .ok st' ∧ lineTriggers sty fmt st' l) := by
  intro lines
  induction lines with
  | nil =>
    intro st
    constructor
    · rintro ⟨e, he⟩
      exact absurd he (by simp [processLines])
    · rintro ⟨pre, l, post, hdec, -⟩
      exact absurd hdec (by simp)
  | cons x rest ih =>
    intro st
    cases hx : processLine sty fmt st x with
    | error e =>
      constructor
      · rintro ⟨e', -⟩
        exact ⟨[], x, rest, rfl, st, by simp [processLines],
          (processLine_error_iff sty fmt st x).mp ⟨e, hx⟩⟩
      · rintro -
        exact ⟨e, by simp [processLines, hx]⟩
    | ok st1 =>
      have hstep : processLines sty fmt (x :: rest) st = processLines sty fmt rest st1 := by
        simp [processLines, hx]
      rw [hstep, ih st1]
      constructor
      · rintro ⟨pre, l, post, hdec, st', hpre, htrig⟩
        exact ⟨x :: pre, l, post, by rw [hdec]; rfl, st', by simp [processLines, hx, hpre], htrig⟩
      · rintro ⟨pre, l, post, hdec, st', hpre, htrig⟩
        cases pre with
        | nil =>
          simp only [List.nil_append] at hdec
          simp only [processLines] at hpre
          obtain ⟨rfl, -⟩ := List.cons.inj hdec
          have hst : st' = st := by
            cases hpre
            rfl
          subst hst
          exact absurd ((processLine_error_iff sty fmt st' x).mpr htrig) (by simp [hx])
        | cons y pre' =>
          obtain ⟨rfl, hrest⟩ := List.cons.inj hdec
          refine ⟨pre', l, post, hrest, st', ?_, htrig⟩
          simpa [processLines, hx] using hpre

set_option maxRecDepth 400000 in
/-- C2: `parse` raises `InvalidLine` if and only if some logical line is
reached (its predecessors processing cleanly) that is neither blank nor
comment-looking, contains no colon, and escapes the pure-value-sequence
exception (`arrayFormat` of `values` with the current parent an open
sequence); the error type has a single constructor, so no other failure is
possible (second conjunct), and the document `foo bar` concretely raises
`InvalidLine` (third conjunct). -/
theorem c2_invalid_line_iff :
    (∀ (s : String) (opts : POptions) (inst : ParserInstance),
      (∃ e, (parseJS s opts inst).1 = .error e) ↔
      (∃ pre l post, logicalLines s = pre ++ l :: post ∧
        ∃ st', processLines (detectIndentType (logicalLines s) inst.ind) opts.arrayFormat pre
            ⟨[], []⟩ = .ok st' ∧
          lineTriggers (detectIndentType (logicalLines s) inst.ind) opts.arrayFormat st' l)) ∧
    (∀ (s : String) (opts : POptions) (inst : ParserInstance) (e : ParseErr),
      (parseJS s opts inst).1 = .error e → e = .invalidLine) ∧
    (parseJS "foo bar" defaultPOptions freshInstance).1 = .error .invalidLine := by
  refine ⟨?_, fun _ _ _ e _ => by cases e; rfl, rfl⟩
  intro s opts inst
  rw [← processLines_error_iff (detectIndentType (logicalLines s) inst.ind) opts.arrayFormat
    (logicalLines s) ⟨[], []⟩]
  unfold parseJS linesToAst
  cases hp : processLines (detectIndentType (logicalLines s) inst.ind) opts.arrayFormat
      (logicalLines s) ⟨[], []⟩ with
  | error e => simp
  | ok st => simp

set_option maxRecDepth 400000 in
/-- Witness for C2 at the claim's concrete document `foo bar`: the line is
reached immediately, has no colon, and the exception does not apply, so the
parse fails. -/
theorem c2_invalid_line_iff_witness :
    ∃ e, (parseJS "foo bar" defaultPOptions freshInstance).1 = .error e :=
  (c2_invalid_line_iff.1 "foo bar" defaultPOptions freshInstance).mpr
    ⟨[], "foo bar".data, [], by decide, ⟨[], []⟩, rfl,
      by decide, by decide, by decide, by decide, by decide⟩
